import Mathlib

/-!
Verification of the market-data refresh and RSI-alerting engine in
src/market_data_hourly_load.py (class MarketDataHourlyLoad and its
APIRateLimiter).  Prices and clock values are modelled as rationals,
timestamps as naturals (unix seconds, or milliseconds where the remote
API returns milliseconds), and the SQLite table as a list of rows.
-/

/-! ## RSI calculation (MarketDataHourlyLoad.calculate_rsi) -/

/-- Result of calculate_rsi.  The Python function returns None when the
series is too short; with a long enough series it returns a float, which
is NaN exactly when both smoothed averages are zero (0/0 in float
arithmetic).  NaN is kept distinct from numeric values because a float
NaN propagates through the comparison with 30 as false. -/
inductive RsiResult where
  | none : RsiResult
  | nan : RsiResult
  | val (q : ℚ) : RsiResult
deriving DecidableEq, Repr

/-- Rounding to two decimals, round(x, 2).  Python rounds half to even on
floats; the model rounds to the nearest integer number of hundredths,
which agrees except exactly at half-hundredth values. -/
def round2 (q : ℚ) : ℚ := (round (q * 100) : ℤ) / 100

/-- delta.where(delta > 0, 0): keep positive deltas, zero elsewhere. -/
def gainClip (d : ℚ) : ℚ := if 0 < d then d else 0

/-- (-delta).where(delta < 0, 0): absolute value of negative deltas, zero
elsewhere. -/
def lossClip (d : ℚ) : ℚ := if d < 0 then -d else 0

/-- One step of the smoothing recurrence used by
ewm(alpha=1/period, adjust=False):
avg is replaced by (avg * (period - 1) + x) / period. -/
def wilderStep (period : ℕ) (avg x : ℚ) : ℚ :=
  (avg * ((period : ℚ) - 1) + x) / period

/-- Consecutive price differences of the series (the defined entries of
DataFrame.diff on the price column). -/
def realDeltas (prices : List (ℚ × ℚ)) : List ℚ :=
  List.zipWith (fun a b => b.2 - a.2) prices prices.tail

/-- The full diff column.  pandas diff yields NaN at index 0; the
subsequent where(...) calls replace that NaN by 0 in both the gain and
the loss series (NaN > 0 and NaN < 0 are false), so the leading entry is
recorded here as 0 directly. -/
def diffSeries (prices : List (ℚ × ℚ)) : List ℚ :=
  0 :: realDeltas prices

/-- ewm(alpha=1/period, adjust=False).mean() over a series: the first
output equals the first input, and each later output applies the
recurrence y = (y_prev * (period - 1) + x) / period. -/
def ewm (period : ℕ) : List ℚ → List ℚ
  | [] => []
  | x :: xs => List.scanl (wilderStep period) x xs

/-- MarketDataHourlyLoad.calculate_rsi (src/market_data_hourly_load.py,
lines 187-200).  Input pairs are (timestamp, price); only the price
column is used.  The code computes the gain and loss ewm series, divides
them elementwise, forms 100 - 100 / (1 + rs) and rounds the last entry;
since only the last entry is returned, the model extracts the last
smoothed gain G and loss L directly.  Float division G / L with L = 0
yields inf when G > 0 (so the RSI is exactly 100.0) and NaN when
G = 0. -/
def calculate_rsi (prices : List (ℚ × ℚ)) (period : ℕ) : RsiResult :=
  if prices.length < period + 1 then RsiResult.none
  else
    let delta := diffSeries prices
    let G := (ewm period (delta.map gainClip)).getLastD 0
    let L := (ewm period (delta.map lossClip)).getLastD 0
    if L = 0 then (if G = 0 then RsiResult.nan else RsiResult.val 100)
    else RsiResult.val (round2 (100 - 100 / (1 + G / L)))

/-- Modelled from the claim wording, for comparison with calculate_rsi:
the canonical Wilder RSI, where the average gain and average loss are
seeded as the simple mean of the first period gain/loss values and every
subsequent step applies avg = (avg * (period - 1) + current) / period,
with RS = avg_gain / avg_loss and RSI = 100 - 100 / (1 + RS), and
RSI = 100 when the average loss is zero. -/
def wilderRsi (prices : List (ℚ × ℚ)) (period : ℕ) : Option ℚ :=
  if prices.length < period + 1 then Option.none
  else
    let gains := (realDeltas prices).map gainClip
    let losses := (realDeltas prices).map lossClip
    let G := (gains.drop period).foldl (wilderStep period)
      ((gains.take period).sum / period)
    let L := (losses.drop period).foldl (wilderStep period)
      ((losses.take period).sum / period)
    if L = 0 then some 100 else some (round2 (100 - 100 / (1 + G / L)))

/-- A 15-point ascending series whose price alternates between 100 and
101: timestamps 0..14, price 100 + (i mod 2). -/
def alt15 : List (ℚ × ℚ) :=
  [(0, 100), (1, 101), (2, 100), (3, 101), (4, 100), (5, 101), (6, 100),
   (7, 101), (8, 100), (9, 101), (10, 100), (11, 101), (12, 100),
   (13, 101), (14, 100)]

/-- A 15-point strictly increasing series: timestamps 0..14, price
100 + i. -/
def inc15 : List (ℚ × ℚ) :=
  [(0, 100), (1, 101), (2, 102), (3, 103), (4, 104), (5, 105), (6, 106),
   (7, 107), (8, 108), (9, 109), (10, 110), (11, 111), (12, 112),
   (13, 113), (14, 114)]

/-! ## Price store (SQLite table prices, PRIMARY KEY (token_id, timestamp)) -/

/-- One entry of the watch list dictionary tokens (token_id with its
name and symbol metadata). -/
structure Token where
  id : String
  name : String
  symbol : String
deriving DecidableEq, Repr

/-- One row of the prices table.  The datetime_utc display column is a
pure rendering of timestamp and takes no part in the primary key or in
any behaviour modelled here, so it is omitted. -/
structure PriceRow where
  token_id : String
  token_name : String
  token_symbol : String
  timestamp : ℕ
  price : ℚ
deriving DecidableEq, Repr

/-- Whether a row carries the given primary key (token_id, timestamp). -/
def keyMatches (tid : String) (ts : ℕ) (r : PriceRow) : Bool :=
  r.token_id == tid && r.timestamp == ts

/-- INSERT OR IGNORE of a single row under the PRIMARY KEY
(token_id, timestamp): a row whose key is already stored is silently
ignored, otherwise the row is appended. -/
def insertOrIgnore (db : List PriceRow) (r : PriceRow) : List PriceRow :=
  if db.any (keyMatches r.token_id r.timestamp) then db else db ++ [r]

/-- cursor.executemany with INSERT OR IGNORE: insert the rows one by
one. -/
def insertMany (db : List PriceRow) (rows : List PriceRow) : List PriceRow :=
  rows.foldl insertOrIgnore db

/-- A row with the given key is stored. -/
def keyPresent (db : List PriceRow) (tid : String) (ts : ℕ) : Prop :=
  ∃ r ∈ db, r.token_id = tid ∧ r.timestamp = ts

/-- MarketDataHourlyLoad.get_last_timestamp: SELECT MAX(timestamp) FROM
prices WHERE token_id = ?, with 0 when no row exists (the code maps a
NULL result to 0). -/
def get_last_timestamp (db : List PriceRow) (tid : String) : ℕ :=
  (db.filter (fun r => r.token_id == tid)).foldl (fun a r => max a r.timestamp) 0

/-- MarketDataHourlyLoad.get_historical_prices_from_db: all rows of a
token ordered by timestamp ascending, returned as
(timestamp * 1000, price) pairs. -/
def insertByTs (p : ℚ × ℚ) : List (ℚ × ℚ) → List (ℚ × ℚ)
  | [] => [p]
  | q :: rest => if p.1 ≤ q.1 then p :: q :: rest else q :: insertByTs p rest

/-- ORDER BY timestamp ASC, modelled as an insertion sort on the first
component. -/
def sortByTs (l : List (ℚ × ℚ)) : List (ℚ × ℚ) :=
  l.foldr insertByTs []

def get_historical_prices_from_db (db : List PriceRow) (tid : String) :
    List (ℚ × ℚ) :=
  sortByTs ((db.filter (fun r => r.token_id == tid)).map
    (fun r => ((r.timestamp : ℚ) * 1000, r.price)))

/-! ## Historical refresh (MarketDataHourlyLoad.update_historical_data) -/

/-- (datetime.utcnow() - datetime.utcfromtimestamp(last)).days: the
floor of the elapsed seconds divided by 86400 (timedelta normalises with
days rounding toward minus infinity). -/
def daysSince (now last : ℕ) : ℤ :=
  ((now : ℤ) - (last : ℤ)).fdiv 86400

/-- The filter on line 140: keep exactly the fetched points whose
timestamp in seconds, int(p[0] / 1000), is strictly greater than the
last stored timestamp.  Points are (timestamp_ms, price) pairs. -/
def filterNewPoints (last : ℕ) (points : List (ℕ × ℚ)) : List (ℕ × ℚ) :=
  points.filter (fun p => decide (last < p.1 / 1000))

/-- The tuple built for executemany from one fetched point (line
142-146): key timestamp is the millisecond value divided by 1000. -/
def rowOfPoint (t : Token) (p : ℕ × ℚ) : PriceRow :=
  { token_id := t.id, token_name := t.name, token_symbol := t.symbol,
    timestamp := p.1 / 1000, price := p.2 }

/-- Outcome of one requests.get on the market_chart endpoint. -/
inductive FetchResult where
  /-- Status 200 with the decoded prices array. -/
  | ok (points : List (ℕ × ℚ)) : FetchResult
  /-- A non-200 status: logged, token skipped, loop continues. -/
  | httpError (status : ℕ) : FetchResult
  /-- A raised exception (connection error, timeout, bad payload):
  propagates out of the token loop. -/
  | exn : FetchResult
deriving DecidableEq, Repr

/-- The loop body of update_historical_data for one token (lines
118-151).  get_last_timestamp opens its own connection, so it reads the
committed state dbRead (the store as of the phase start); inserts go to
the uncommitted transaction state dbWrite.  The result is none when an
exception escapes (aborting the loop), and the second component counts
API requests issued for this token. -/
def updateTokenStep (now : ℕ) (fetch : String → ℤ → FetchResult)
    (dbRead dbWrite : List PriceRow) (t : Token) :
    Option (List PriceRow) × ℕ :=
  let last := get_last_timestamp dbRead t.id
  let days : ℤ := if 0 < last then daysSince now last else 59
  if 0 < last ∧ days ≤ 0 then (some dbWrite, 0)
  else
    match fetch t.id days with
    | FetchResult.ok points =>
        (some (insertMany dbWrite
          ((filterNewPoints last points).map (rowOfPoint t))), 1)
    | FetchResult.httpError _ => (some dbWrite, 1)
    | FetchResult.exn => (Option.none, 1)

/-- The token loop.  db0 is the committed store at phase start; when an
exception escapes the loop the sqlite connection context manager rolls
the open transaction back, so the committed store stays db0. -/
def update_go (now : ℕ) (fetch : String → ℤ → FetchResult)
    (db0 : List PriceRow) : List PriceRow → List Token → List PriceRow
  | db, [] => db
  | db, t :: rest =>
    match (updateTokenStep now fetch db0 db t).1 with
    | some dbNext => update_go now fetch db0 dbNext rest
    | Option.none => db0

/-- MarketDataHourlyLoad.update_historical_data (lines 107-155).  A
missing API key raises ValueError before the loop; the except clause of
the function catches it (as it catches any exception), so the function
returns with the store unchanged.  On normal loop exit conn.commit()
makes the accumulated inserts the new committed store. -/
def update_historical_data (apiKey : Option String) (now : ℕ)
    (tokensWatch : List Token) (fetch : String → ℤ → FetchResult)
    (db0 : List PriceRow) : List PriceRow :=
  match apiKey with
  | Option.none => db0
  | some _ => update_go now fetch db0 db0 tokensWatch

/-! ## Market check and scheduling (run_market_check, start) -/

/-- The alert decision on a computed RSI value (lines 230-235): the
value passes the is-not-None guard and the alert fires when
rsi_value < 30.  A float NaN passes the None guard but compares false
against 30, so it never alerts. -/
def emitsAlert : RsiResult → Bool
  | RsiResult.val q => decide (q < 30)
  | _ => false

/-- The per-token body of the check loop (lines 212-237): skip when the
store has no rows for the token or the batched response has no price for
it, otherwise append the current price point and test the RSI alert
decision.  Returns whether an alert message is sent for this token. -/
def run_market_check_token (hist : List (ℚ × ℚ)) (cur : Option ℚ)
    (nowMs : ℚ) : Bool :=
  if hist.isEmpty then false
  else
    match cur with
    | Option.none => false
    | some c => emitsAlert (calculate_rsi (hist ++ [(nowMs, c)]) 14)

/-- The alerts sent during the check loop, as (symbol, rsi) pairs. -/
def alertsFor (db : List PriceRow) (curP : String → Option ℚ)
    (nowMs : ℚ) (tokensWatch : List Token) : List (String × ℚ) :=
  tokensWatch.filterMap (fun t =>
    let hist := get_historical_prices_from_db db t.id
    if hist.isEmpty then Option.none
    else
      match curP t.id with
      | Option.none => Option.none
      | some c =>
        match calculate_rsi (hist ++ [(nowMs, c)]) 14 with
        | RsiResult.val q =>
            if q < 30 then some (t.symbol, q) else Option.none
        | _ => Option.none)

/-- MarketDataHourlyLoad.run_market_check (lines 202-239): refresh the
store, then fetch the batched current prices; an empty batch (network
exception, modelled as Option.none) skips the whole check phase,
otherwise the check loop runs.  Returns the committed store and the
alerts sent. -/
def run_market_check (apiKey : Option String) (now : ℕ)
    (tokensWatch : List Token) (fetchHist : String → ℤ → FetchResult)
    (cur : Option (String → Option ℚ)) (db0 : List PriceRow) :
    List PriceRow × List (String × ℚ) :=
  let db1 := update_historical_data apiKey now tokensWatch fetchHist db0
  match cur with
  | Option.none => (db1, [])
  | some curP => (db1, alertsFor db1 curP ((now : ℚ) * 1000) tokensWatch)

/-- MarketDataHourlyLoad.start (lines 241-248):
schedule.every().hour.do(self.run_market_check) executes first and
unconditionally, so the hourly trigger is armed before the first cycle
runs; the first component records that the scheduler was armed, the
rest is the outcome of the first cycle. -/
def start (apiKey : Option String) (now : ℕ) (tokensWatch : List Token)
    (fetchHist : String → ℤ → FetchResult)
    (cur : Option (String → Option ℚ)) (db0 : List PriceRow) :
    Bool × List PriceRow × List (String × ℚ) :=
  (true, run_market_check apiKey now tokensWatch fetchHist cur db0)

/-! ## Rate limiter (APIRateLimiter, lines 13-33) -/

/-- State of APIRateLimiter together with an explicit model clock.  The
deque call_timestamps is a list ordered oldest first; now is the value
time.time() would return. -/
structure RL where
  maxCalls : ℕ
  period : ℚ
  q : List ℚ
  now : ℚ
deriving Repr

/-- A fresh APIRateLimiter(max_calls, period_seconds) at clock now0. -/
def RL.init (m : ℕ) (p now0 : ℚ) : RL :=
  { maxCalls := m, period := p, q := [], now := now0 }

/-- APIRateLimiter.wait (lines 19-33) with the clock and time.sleep made
explicit: drop timestamps older than the window from the front of the
deque; if max_calls or more remain, sleep until the oldest one exits the
window (sleeping advances the clock by exactly the wait time); then
record the new call timestamp time.time(). -/
def RL.wait (s : RL) : RL :=
  let pruned := s.q.dropWhile (fun t => decide (t ≤ s.now - s.period))
  if s.maxCalls ≤ pruned.length then
    let w := pruned.headI - (s.now - s.period)
    let n2 := s.now + max w 0
    { maxCalls := s.maxCalls, period := s.period, q := pruned ++ [n2], now := n2 }
  else
    { maxCalls := s.maxCalls, period := s.period, q := pruned ++ [s.now], now := s.now }

/-- Time passing between two calls from the single calling thread. -/
def RL.advance (δ : ℚ) (s : RL) : RL :=
  { maxCalls := s.maxCalls, period := s.period, q := s.q, now := s.now + δ }

/-- A sequence of wait() calls from a single thread: before each call
the clock advances by the corresponding list entry, then wait() runs.
Returns the final state and the recorded call timestamps in order. -/
def rlRun (s : RL) (hist : List ℚ) : List ℚ → RL × List ℚ
  | [] => (s, hist)
  | δ :: ds => rlRun ((s.advance δ).wait) (hist ++ [((s.advance δ).wait).now]) ds

/-- The inductive invariant tying a rate limiter state to the list of
call timestamps recorded so far. -/
structure RLInv (m : ℕ) (p : ℚ) (s : RL) (hist : List ℚ) : Prop where
  maxEq : s.maxCalls = m
  periodEq : s.period = p
  sortedQ : s.q.Sorted (· ≤ ·)
  qLe : ∀ t ∈ s.q, t ≤ s.now
  windowBound : s.q.countP (fun t => decide (s.now - p < t)) ≤ m
  histSplit : ∃ pre, hist = pre ++ s.q ∧ ∀ t ∈ pre, t ≤ s.now - p
  sortedHist : hist.Sorted (· ≤ ·)
  histLe : ∀ t ∈ hist, t ≤ s.now
  lastIsNow : hist ≠ [] → hist.getLastD 0 = s.now

/-! ## Concrete inputs used by witnesses and counterexamples -/

/-- Token a of the two-token refresh scenarios. -/
def tokA : Token := { id := "a", name := "TokenA", symbol := "TKA" }

/-- Token b of the two-token refresh scenarios. -/
def tokB : Token := { id := "b", name := "TokenB", symbol := "TKB" }

/-- Fetch oracle where the fetch of token a succeeds with one point at
day one and the fetch of token b raises an exception. -/
def fetchExnB : String → ℤ → FetchResult := fun tid _ =>
  if tid = "a" then FetchResult.ok [(86400000, 5)] else FetchResult.exn

/-- Fetch oracle where the fetch of token a fails with status 500 and
the fetch of token b succeeds with one point at day one. -/
def fetchFailA : String → ℤ → FetchResult := fun tid _ =>
  if tid = "a" then FetchResult.httpError 500
  else FetchResult.ok [(86400000, 5)]

/-- A stored row for token btc at timestamp 1000. -/
def rowBtc : PriceRow :=
  { token_id := "btc", token_name := "Bitcoin", token_symbol := "BTC",
    timestamp := 1000, price := 10 }

/-- The watch entry matching rowBtc. -/
def tokBtc : Token := { id := "btc", name := "Bitcoin", symbol := "BTC" }

/-! ## Helper lemmas about the smoothing pipeline -/

theorem getLastD_scanl (f : ℚ → ℚ → ℚ) :
    ∀ (l : List ℚ) (a d : ℚ), (List.scanl f a l).getLastD d = l.foldl f a
  | [], a, d => rfl
  | x :: xs, a, d => by
    rw [List.scanl_cons, List.singleton_append, List.getLastD_cons,
      getLastD_scanl f xs (f a x) a, List.foldl_cons]

theorem ewm_getLastD (p : ℕ) (x : ℚ) (xs : List ℚ) (d : ℚ) :
    (ewm p (x :: xs)).getLastD d = xs.foldl (wilderStep p) x := by
  rw [ewm, getLastD_scanl]

/-- The last entry of each smoothed series in calculate_rsi equals a
single left fold of the Wilder recurrence started at the zero seed
contributed by the first differenced value. -/
theorem calculate_rsi_eq_fold (prices : List (ℚ × ℚ)) (period : ℕ)
    (h : period + 1 ≤ prices.length) :
    calculate_rsi prices period =
      (let G := (realDeltas prices).foldl
        (fun a d => wilderStep period a (gainClip d)) 0
       let L := (realDeltas prices).foldl
        (fun a d => wilderStep period a (lossClip d)) 0
       if L = 0 then (if G = 0 then RsiResult.nan else RsiResult.val 100)
       else RsiResult.val (round2 (100 - 100 / (1 + G / L)))) := by
  rw [calculate_rsi, if_neg (by omega)]
  have hg : gainClip 0 = 0 := by simp [gainClip]
  have hl : lossClip 0 = 0 := by simp [lossClip]
  simp only [diffSeries, List.map_cons, hg, hl, ewm_getLastD,
    List.foldl_map]

theorem foldl_loss_zero (p : ℕ) (l : List ℚ) (h : ∀ d ∈ l, 0 ≤ d) :
    l.foldl (fun a d => wilderStep p a (lossClip d)) 0 = 0 := by
  induction l with
  | nil => rfl
  | cons x xs ih =>
    have hx : lossClip x = 0 := by
      rw [lossClip, if_neg (not_lt.mpr (h x (List.mem_cons_self x xs)))]
    rw [List.foldl_cons, hx]
    have hstep : wilderStep p 0 0 = 0 := by simp [wilderStep]
    rw [hstep]
    exact ih (fun d hd => h d (List.mem_cons_of_mem x hd))

theorem foldl_gain_pos (p : ℕ) (hp : 1 ≤ p) :
    ∀ (l : List ℚ), (∀ d ∈ l, 0 < d) → ∀ a : ℚ, 0 ≤ a →
      (l ≠ [] ∨ 0 < a) →
      0 < l.foldl (fun acc d => wilderStep p acc (gainClip d)) a
  | [], _, a, _, hne => by
    rcases hne with hne | hpos
    · exact absurd rfl hne
    · exact hpos
  | x :: xs, h, a, ha, _ => by
    have hx : 0 < x := h x (List.mem_cons_self x xs)
    have hgx : gainClip x = x := by rw [gainClip, if_pos hx]
    have hpq : (0 : ℚ) < p := by exact_mod_cast Nat.lt_of_lt_of_le Nat.zero_lt_one hp
    have hstep : 0 < wilderStep p a x := by
      apply div_pos _ hpq
      have h1 : (1 : ℚ) ≤ (p : ℚ) := by exact_mod_cast hp
      have : 0 ≤ a * ((p : ℚ) - 1) := mul_nonneg ha (by linarith)
      linarith
    rw [List.foldl_cons, hgx]
    exact foldl_gain_pos p hp xs
      (fun d hd => h d (List.mem_cons_of_mem x hd))
      (wilderStep p a x) hstep.le (Or.inr hstep)

theorem realDeltas_pos :
    ∀ (prices : List (ℚ × ℚ)), prices.Chain' (fun a b => a.2 < b.2) →
      ∀ d ∈ realDeltas prices, 0 < d
  | [], _, d, hd => by simp [realDeltas] at hd
  | [_], _, d, hd => by simp [realDeltas] at hd
  | a :: b :: rest, h, d, hd => by
    rw [List.chain'_cons] at h
    rw [realDeltas, List.tail_cons, List.zipWith_cons_cons] at hd
    rcases List.mem_cons.mp hd with hd | hd
    · subst hd; linarith [h.1]
    · exact realDeltas_pos (b :: rest) h.2 d hd

theorem realDeltas_length (prices : List (ℚ × ℚ)) :
    (realDeltas prices).length = prices.length - 1 := by
  rw [realDeltas, List.length_zipWith, List.length_tail]
  omega

/-! ## C1: the RSI smoothing is not the mean-seeded Wilder method -/

/-- C1 (counterexample): on the ascending 15-point alternating series,
calculate_rsi with period 14 yields 48.15 while the Wilder method of the
claim, with the averages seeded as the simple mean of the first 14
gain/loss values, yields 50.00; the claim that calculate_rsi returns the
mean-seeded Wilder RSI on every such series is therefore false. -/
theorem calculate_rsi_not_mean_seeded_cex :
    alt15.Chain' (fun a b => a.1 < b.1) ∧ alt15.length = 14 + 1 ∧
    calculate_rsi alt15 14 = RsiResult.val (963 / 20) ∧
    wilderRsi alt15 14 = some 50 ∧ (963 / 20 : ℚ) ≠ 50 := by
  refine ⟨by norm_num [alt15], by decide, ?_, ?_, by norm_num⟩
  · norm_num [calculate_rsi, diffSeries, realDeltas, alt15, ewm, gainClip,
      lossClip, wilderStep, round2, round_eq]
  · norm_num [wilderRsi, realDeltas, alt15, gainClip, lossClip, wilderStep,
      round2, round_eq]

/-- C1 (amended): for every price series with at least period + 1
points, calculate_rsi applies the Wilder recurrence
avg = (avg * (period - 1) + current) / period to every gain/loss value,
but seeds the average with the first (zeroed) differenced value instead
of the simple mean of the first period values — i.e. it is the
exponential moving average with alpha = 1 / period and adjust=False
started at 0 — and then forms RS = avg_gain / avg_loss and
RSI = 100 - 100 / (1 + RS) rounded to two decimals, with the float
division conventions at avg_loss = 0. -/
theorem calculate_rsi_zero_seed_wilder (prices : List (ℚ × ℚ))
    (period : ℕ) (h : period + 1 ≤ prices.length) :
    calculate_rsi prices period =
      (let G := (realDeltas prices).foldl
        (fun a d => wilderStep period a (gainClip d)) 0
       let L := (realDeltas prices).foldl
        (fun a d => wilderStep period a (lossClip d)) 0
       if L = 0 then (if G = 0 then RsiResult.nan else RsiResult.val 100)
       else RsiResult.val (round2 (100 - 100 / (1 + G / L)))) :=
  calculate_rsi_eq_fold prices period h

/-- Witness for the amended C1 at the concrete alternating series. -/
theorem calculate_rsi_zero_seed_wilder_witness :
    calculate_rsi alt15 14 =
      (let G := (realDeltas alt15).foldl
        (fun a d => wilderStep 14 a (gainClip d)) 0
       let L := (realDeltas alt15).foldl
        (fun a d => wilderStep 14 a (lossClip d)) 0
       if L = 0 then (if G = 0 then RsiResult.nan else RsiResult.val 100)
       else RsiResult.val (round2 (100 - 100 / (1 + G / L)))) :=
  calculate_rsi_zero_seed_wilder alt15 14 (by decide)

/-! ## C5: series shorter than period + 1 give the no-result signal -/

/-- C5: for every input series with fewer than period + 1 points,
calculate_rsi returns the explicit no-result signal None; it never
returns a numeric RSI there and, being a plain early return, cannot
crash. -/
theorem calculate_rsi_insufficient_data (prices : List (ℚ × ℚ))
    (period : ℕ) (h : prices.length < period + 1) :
    calculate_rsi prices period = RsiResult.none := by
  rw [calculate_rsi, if_pos h]

/-- Witness for C5 at the empty series. -/
theorem calculate_rsi_insufficient_data_witness :
    calculate_rsi [] 14 = RsiResult.none :=
  calculate_rsi_insufficient_data [] 14 (by decide)

/-! ## C6: strictly increasing series give RSI = 100 -/

/-- C6: on every strictly increasing price series with at least
period + 1 points (period at least 1), the smoothed loss is zero and the
smoothed gain is positive, so calculate_rsi returns exactly 100 without
dividing by zero. -/
theorem calculate_rsi_strictly_increasing_100 (prices : List (ℚ × ℚ))
    (period : ℕ) (hp : 1 ≤ period) (hlen : period + 1 ≤ prices.length)
    (hinc : prices.Chain' (fun a b => a.2 < b.2)) :
    calculate_rsi prices period = RsiResult.val 100 := by
  rw [calculate_rsi_eq_fold prices period hlen]
  have hpos : ∀ d ∈ realDeltas prices, 0 < d := realDeltas_pos prices hinc
  have hne : realDeltas prices ≠ [] := by
    have := realDeltas_length prices
    intro hcon
    rw [hcon] at this
    simp at this
    omega
  have hL : (realDeltas prices).foldl
      (fun a d => wilderStep period a (lossClip d)) 0 = 0 :=
    foldl_loss_zero period _ (fun d hd => (hpos d hd).le)
  have hG : 0 < (realDeltas prices).foldl
      (fun a d => wilderStep period a (gainClip d)) 0 :=
    foldl_gain_pos period hp _ hpos 0 le_rfl (Or.inl hne)
  simp only [hL, if_pos rfl, hG.ne', if_neg]
  simp [hG.ne']

/-- Witness for C6 at the concrete strictly increasing series. -/
theorem calculate_rsi_strictly_increasing_100_witness :
    calculate_rsi inc15 14 = RsiResult.val 100 :=
  calculate_rsi_strictly_increasing_100 inc15 14 (by decide) (by decide)
    (by norm_num [inc15])

/-! ## Helper lemmas about the store -/

theorem keyPresent_mono (db : List PriceRow) (r : PriceRow) (tid : String)
    (ts : ℕ) (h : keyPresent db tid ts) :
    keyPresent (insertOrIgnore db r) tid ts := by
  rw [insertOrIgnore]
  split
  · exact h
  · rcases h with ⟨x, hx, hk⟩
    exact ⟨x, List.mem_append_left _ hx, hk⟩

theorem keyPresent_self (db : List PriceRow) (r : PriceRow) :
    keyPresent (insertOrIgnore db r) r.token_id r.timestamp := by
  rw [insertOrIgnore]
  split
  · next hcond =>
    rcases List.any_eq_true.mp hcond with ⟨x, hxdb, hxk⟩
    simp only [keyMatches, Bool.and_eq_true, beq_iff_eq] at hxk
    exact ⟨x, hxdb, hxk.1, hxk.2⟩
  · exact ⟨r, List.mem_append_right _ (List.mem_singleton.mpr rfl), rfl, rfl⟩

theorem insertMany_cons (db : List PriceRow) (a : PriceRow)
    (rs : List PriceRow) :
    insertMany db (a :: rs) = insertMany (insertOrIgnore db a) rs := by
  rw [insertMany, insertMany, List.foldl_cons]

theorem keyPresent_insertMany_mono (rows : List PriceRow)
    (db : List PriceRow) (tid : String) (ts : ℕ)
    (h : keyPresent db tid ts) : keyPresent (insertMany db rows) tid ts := by
  induction rows generalizing db with
  | nil => exact h
  | cons a rs ih =>
    rw [insertMany_cons]
    exact ih _ (keyPresent_mono db a tid ts h)

theorem keyPresent_insertMany_of_mem (rows : List PriceRow)
    (db : List PriceRow) (r : PriceRow) (h : r ∈ rows) :
    keyPresent (insertMany db rows) r.token_id r.timestamp := by
  induction rows generalizing db with
  | nil => cases h
  | cons a rs ih =>
    rw [insertMany_cons]
    rcases List.mem_cons.mp h with h | h
    · subst h
      exact keyPresent_insertMany_mono rs _ _ _ (keyPresent_self db r)
    · exact ih _ h

/-! ## C7: ingestion is idempotent -/

/-- C7: under the primary key (token_id, timestamp), inserting a row
whose key is already stored is a silent no-op, and inserting the same
row twice into a store that does not yet hold its key leaves exactly one
row with that key.  The insert is total, so no error is raised. -/
theorem insert_idempotent_one_row (db : List PriceRow) (r : PriceRow) :
    (db.any (keyMatches r.token_id r.timestamp) = true →
      insertOrIgnore db r = db) ∧
    (db.any (keyMatches r.token_id r.timestamp) = false →
      ((insertOrIgnore (insertOrIgnore db r) r).filter
        (keyMatches r.token_id r.timestamp)).length = 1) := by
  have hself : keyMatches r.token_id r.timestamp r = true := by
    simp [keyMatches]
  constructor
  · intro h
    rw [insertOrIgnore, if_pos h]
  · intro h
    have h1 : insertOrIgnore db r = db ++ [r] := by
      rw [insertOrIgnore, if_neg (by rw [h]; exact Bool.false_ne_true)]
    have h2 : (db ++ [r]).any (keyMatches r.token_id r.timestamp) = true := by
      rw [List.any_append]
      simp [hself]
    have h3 : insertOrIgnore (db ++ [r]) r = db ++ [r] := by
      rw [insertOrIgnore, if_pos h2]
    rw [h1, h3, List.filter_append]
    have hdb : db.filter (keyMatches r.token_id r.timestamp) = [] := by
      rw [List.filter_eq_nil_iff]
      intro a ha
      have := List.any_eq_false.mp h a ha
      simp [this]
    rw [hdb]
    simp [hself]

/-- Witness for C7: inserting the btc row twice into the empty store
leaves exactly one row with its key. -/
theorem insert_idempotent_one_row_witness :
    ((insertOrIgnore (insertOrIgnore [] rowBtc) rowBtc).filter
      (keyMatches rowBtc.token_id rowBtc.timestamp)).length = 1 :=
  (insert_idempotent_one_row [] rowBtc).2 rfl

/-! ## C8: the freshness filter keeps exactly the strictly newer points -/

/-- C8: the filter applied to freshly fetched points keeps a point if
and only if it was fetched and its timestamp in seconds is strictly
greater than the last stored timestamp; points at or before the last
stored timestamp are discarded. -/
theorem filter_keeps_strictly_newer (last : ℕ) (points : List (ℕ × ℚ))
    (p : ℕ × ℚ) :
    p ∈ filterNewPoints last points ↔ p ∈ points ∧ last < p.1 / 1000 := by
  simp [filterNewPoints]

/-- Witness for C8 at a concrete point list. -/
theorem filter_keeps_strictly_newer_witness :
    ((86400000, (5 : ℚ)) ∈ filterNewPoints 0 [(86400000, 5)] ↔
      (86400000, (5 : ℚ)) ∈ [((86400000 : ℕ), (5 : ℚ))] ∧
        0 < 86400000 / 1000) :=
  filter_keeps_strictly_newer 0 [(86400000, 5)] (86400000, 5)

/-! ## C9: the alert fires exactly for a defined RSI strictly below 30 -/

theorem emitsAlert_eq_true_iff (r : RsiResult) :
    emitsAlert r = true ↔ ∃ q, r = RsiResult.val q ∧ q < 30 := by
  cases r with
  | none => simp [emitsAlert]
  | nan => simp [emitsAlert]
  | val q => simp [emitsAlert]

/-- C9: in the check phase a token alerts exactly when it has stored
history, a current price, and the computed RSI is a defined numeric
value strictly below 30; an RSI of exactly 30.00 does not alert while
29.99 does. -/
theorem alert_iff_rsi_below_threshold :
    (∀ (hist : List (ℚ × ℚ)) (cur : Option ℚ) (nowMs : ℚ),
      run_market_check_token hist cur nowMs = true ↔
        ∃ c q, cur = some c ∧ hist ≠ [] ∧
          calculate_rsi (hist ++ [(nowMs, c)]) 14 = RsiResult.val q ∧
          q < 30) ∧
    emitsAlert (RsiResult.val 30) = false ∧
    emitsAlert (RsiResult.val (2999 / 100)) = true := by
  refine ⟨?_, by norm_num [emitsAlert], by norm_num [emitsAlert]⟩
  intro hist cur nowMs
  rcases cur with _ | c
  · simp [run_market_check_token]
  · by_cases hh : hist.isEmpty
    · rw [run_market_check_token, if_pos hh]
      simp [List.isEmpty_iff.mp hh]
    · rw [run_market_check_token, if_neg hh]
      rw [emitsAlert_eq_true_iff]
      constructor
      · rintro ⟨q, hq, hlt⟩
        exact ⟨c, q, rfl, by simpa [List.isEmpty_iff] using hh, hq, hlt⟩
      · rintro ⟨c2, q, hc, _, hq, hlt⟩
        rcases Option.some_injective _ hc with rfl
        exact ⟨q, hq, hlt⟩

/-- Witness for C9 at a concrete (empty) token state. -/
theorem alert_iff_rsi_below_threshold_witness :
    (run_market_check_token [] Option.none 0 = true ↔
      ∃ c q, (Option.none : Option ℚ) = some c ∧
        ([] : List (ℚ × ℚ)) ≠ [] ∧
        calculate_rsi ([] ++ [((0 : ℚ), c)]) 14 = RsiResult.val q ∧
        q < 30) :=
  alert_iff_rsi_below_threshold.1 [] Option.none 0

/-! ## C10: an up-to-date token is skipped without an API request -/

/-- C10: when the last stored timestamp of a token is positive and the
computed days since the last update is at most zero, the loop body for
that token issues no API request and returns the uncommitted store
unchanged, for every fetch oracle. -/
theorem up_to_date_token_skipped (now : ℕ)
    (fetch : String → ℤ → FetchResult) (dbRead dbWrite : List PriceRow)
    (t : Token) (h1 : 0 < get_last_timestamp dbRead t.id)
    (h2 : daysSince now (get_last_timestamp dbRead t.id) ≤ 0) :
    updateTokenStep now fetch dbRead dbWrite t = (some dbWrite, 0) := by
  have hdays : (if 0 < get_last_timestamp dbRead t.id
      then daysSince now (get_last_timestamp dbRead t.id) else (59 : ℤ)) ≤ 0 := by
    rw [if_pos h1]; exact h2
  simp only [updateTokenStep]
  rw [if_pos ⟨h1, hdays⟩]

/-- Witness for C10: a btc row stored 500 seconds ago is skipped. -/
theorem up_to_date_token_skipped_witness :
    updateTokenStep 1500 fetchExnB [rowBtc] [rowBtc] tokBtc =
      (some [rowBtc], 0) :=
  up_to_date_token_skipped 1500 fetchExnB [rowBtc] [rowBtc] tokBtc
    (by decide) (by decide)

/-! ## C2: failure isolation during the refresh phase -/

/-- C2 (counterexample): in a two-token refresh over an empty store
where the fetch of token a succeeds with one fresh point (which the
freshness filter would keep) and the fetch of token b raises an
exception, the phase ends with the store still empty: the exception
escapes the token loop and the transaction with the already-inserted
point of token a is rolled back, so the failure of one token discards
the data of another token whose fetch succeeded. -/
theorem refresh_exception_rollback_cex :
    update_historical_data (some "k") 7776000 [tokA, tokB] fetchExnB []
      = [] ∧
    fetchExnB tokA.id 59 = FetchResult.ok [(86400000, 5)] ∧
    (filterNewPoints (get_last_timestamp [] tokA.id)
      [(86400000, 5)]).length = 1 := by
  refine ⟨by decide, rfl, by decide⟩

/-- When a token's fetch cannot raise an exception, its loop body never
takes the abort branch: the uncommitted store is extended by some
(possibly empty) list of rows. -/
theorem updateTokenStep_no_exn (now : ℕ) (fetch : String → ℤ → FetchResult)
    (db0 dbW : List PriceRow) (t : Token)
    (hne : ∀ d, fetch t.id d ≠ FetchResult.exn) :
    ∃ rows, (updateTokenStep now fetch db0 dbW t).1 =
      some (insertMany dbW rows) := by
  simp only [updateTokenStep]
  by_cases hskip : 0 < get_last_timestamp db0 t.id ∧
      (if 0 < get_last_timestamp db0 t.id
       then daysSince now (get_last_timestamp db0 t.id) else (59 : ℤ)) ≤ 0
  · exact ⟨[], by rw [if_pos hskip]; rfl⟩
  · rw [if_neg hskip]
    cases hf : fetch t.id (if 0 < get_last_timestamp db0 t.id
        then daysSince now (get_last_timestamp db0 t.id) else 59) with
    | ok points =>
      exact ⟨(filterNewPoints (get_last_timestamp db0 t.id) points).map
        (rowOfPoint t), rfl⟩
    | httpError st => exact ⟨[], rfl⟩
    | exn => exact absurd hf (hne _)

/-- The loop body of a token whose fetch succeeds and that is not
skipped as up to date inserts exactly its filter-passing points.  The
last stored timestamp is read against the committed snapshot db0, as
get_last_timestamp opens its own connection. -/
theorem updateTokenStep_ok (now : ℕ) (fetch : String → ℤ → FetchResult)
    (db0 dbW : List PriceRow) (B : Token) (pts : List (ℕ × ℚ))
    (hB : ∀ d, fetch B.id d = FetchResult.ok pts)
    (hBrun : ¬ (0 < get_last_timestamp db0 B.id ∧
      daysSince now (get_last_timestamp db0 B.id) ≤ 0)) :
    (updateTokenStep now fetch db0 dbW B).1 =
      some (insertMany dbW
        ((filterNewPoints (get_last_timestamp db0 B.id) pts).map
          (rowOfPoint B))) := by
  have hBrun2 : ¬ (0 < get_last_timestamp db0 B.id ∧
      (if 0 < get_last_timestamp db0 B.id
       then daysSince now (get_last_timestamp db0 B.id) else (59 : ℤ)) ≤ 0) := by
    intro hcon
    rcases hcon with ⟨hpos, hdays⟩
    rw [if_pos hpos] at hdays
    exact hBrun ⟨hpos, hdays⟩
  simp only [updateTokenStep]
  rw [if_neg hBrun2, hB]

/-- Along a refresh loop in which no fetch raises an exception, a stored
key is never lost: each loop body only inserts. -/
theorem update_go_keyPresent (now : ℕ) (fetch : String → ℤ → FetchResult)
    (db0 : List PriceRow) (tid : String) (ts : ℕ) :
    ∀ (tokens : List Token) (dbW : List PriceRow),
      (∀ t ∈ tokens, ∀ d, fetch t.id d ≠ FetchResult.exn) →
      keyPresent dbW tid ts →
      keyPresent (update_go now fetch db0 dbW tokens) tid ts
  | [], _, _, h => h
  | t :: rest, dbW, hnoexn, h => by
    obtain ⟨rows, hrows⟩ := updateTokenStep_no_exn now fetch db0 dbW t
      (hnoexn t (List.mem_cons_self t rest))
    simp only [update_go, hrows]
    exact update_go_keyPresent now fetch db0 tid ts rest _
      (fun x hx d => hnoexn x (List.mem_cons_of_mem t hx) d)
      (keyPresent_insertMany_mono rows dbW tid ts h)

/-- Isolation along the refresh loop: in a phase whose failures are all
HTTP statuses, a watched token whose fetch succeeds and that is not
skipped gets every filter-passing point keyed into the store, wherever
it sits in the watch list and whatever the other tokens do. -/
theorem update_go_isolation (now : ℕ) (fetch : String → ℤ → FetchResult)
    (db0 : List PriceRow) (B : Token) (pts : List (ℕ × ℚ)) (p : ℕ × ℚ)
    (hB : ∀ d, fetch B.id d = FetchResult.ok pts)
    (hBrun : ¬ (0 < get_last_timestamp db0 B.id ∧
      daysSince now (get_last_timestamp db0 B.id) ≤ 0))
    (hp : p ∈ pts) (hnew : get_last_timestamp db0 B.id < p.1 / 1000) :
    ∀ (tokens : List Token) (dbW : List PriceRow),
      (∀ t ∈ tokens, ∀ d, fetch t.id d ≠ FetchResult.exn) →
      B ∈ tokens →
      keyPresent (update_go now fetch db0 dbW tokens) B.id (p.1 / 1000)
  | [], _, _, hmem => absurd hmem (List.not_mem_nil B)
  | t :: rest, dbW, hnoexn, hmem => by
    rcases List.mem_cons.mp hmem with rfl | hmem2
    · have hstep := updateTokenStep_ok now fetch db0 dbW B pts hB hBrun
      simp only [update_go, hstep]
      refine update_go_keyPresent now fetch db0 B.id (p.1 / 1000) rest _
        (fun x hx d => hnoexn x (List.mem_cons_of_mem B hx) d) ?_
      have hpf : p ∈ filterNewPoints (get_last_timestamp db0 B.id) pts := by
        rw [filterNewPoints, List.mem_filter]
        exact ⟨hp, by simpa using hnew⟩
      have hrow : rowOfPoint B p ∈
          (filterNewPoints (get_last_timestamp db0 B.id) pts).map
            (rowOfPoint B) :=
        List.mem_map_of_mem (rowOfPoint B) hpf
      have hres := keyPresent_insertMany_of_mem _ dbW (rowOfPoint B p) hrow
      simpa [rowOfPoint] using hres
    · obtain ⟨rows, hrows⟩ := updateTokenStep_no_exn now fetch db0 dbW t
        (hnoexn t (List.mem_cons_self t rest))
      simp only [update_go, hrows]
      exact update_go_isolation now fetch db0 B pts p hB hBrun hp hnew rest _
        (fun x hx d => hnoexn x (List.mem_cons_of_mem t hx) d) hmem2

/-- C2 (amended): a per-token fetch failure signalled by a non-success
HTTP status is isolated.  In any refresh phase over any watch list in
which no fetch raises an exception (failures, if any, are HTTP
statuses), every watched token whose fetch succeeds and that is not
skipped as up to date has each of its fetched, filter-passing points
keyed into the store after the phase, regardless of its position in the
watch list and of how many other tokens fail.  (An exception-raising
failure instead aborts the loop and rolls the phase back, as the
counterexample shows.) -/
theorem refresh_status_failure_isolation (now : ℕ)
    (fetch : String → ℤ → FetchResult) (tokensWatch : List Token)
    (B : Token) (db0 : List PriceRow) (pts : List (ℕ × ℚ)) (p : ℕ × ℚ)
    (k : String)
    (hnoexn : ∀ t ∈ tokensWatch, ∀ d, fetch t.id d ≠ FetchResult.exn)
    (hmem : B ∈ tokensWatch)
    (hB : ∀ d, fetch B.id d = FetchResult.ok pts)
    (hBrun : ¬ (0 < get_last_timestamp db0 B.id ∧
      daysSince now (get_last_timestamp db0 B.id) ≤ 0))
    (hp : p ∈ pts) (hnew : get_last_timestamp db0 B.id < p.1 / 1000) :
    keyPresent (update_historical_data (some k) now tokensWatch fetch db0)
      B.id (p.1 / 1000) := by
  simp only [update_historical_data]
  exact update_go_isolation now fetch db0 B pts p hB hBrun hp hnew
    tokensWatch db0 hnoexn hmem

/-- Witness for the amended C2: token a fails with status 500, token b
succeeds with one fresh point over the empty store, and a row with the
key of that point for token b is stored after the phase. -/
theorem refresh_status_failure_isolation_witness :
    keyPresent (update_historical_data (some "k") 0 [tokA, tokB]
      fetchFailA []) tokB.id (86400000 / 1000) :=
  refresh_status_failure_isolation 0 fetchFailA [tokA, tokB] tokB []
    [(86400000, 5)] (86400000, 5) "k"
    (by intro t _ d; simp only [fetchFailA]; split <;> simp)
    (by decide) (fun _ => rfl) (by decide)
    (List.mem_singleton.mpr rfl) (by decide)

/-! ## C3: a missing credential is not fatal -/

/-- C3 (counterexample): started with the API credential absent, the
process still arms the hourly scheduler (the armed component is true)
and the first cycle completes with the store unchanged instead of the
process refusing to start the scheduler. -/
theorem start_arms_scheduler_without_key_cex :
    (start Option.none 0 [tokA] fetchExnB Option.none []).1 = true ∧
    (start Option.none 0 [tokA] fetchExnB Option.none []).2.1 = [] :=
  ⟨rfl, rfl⟩

/-- C3 (amended): a missing API credential is not fatal: the ValueError
raised inside update_historical_data is caught by that method, the
refresh leaves the store unchanged, and start arms the hourly scheduler
unconditionally before running the first cycle, so the scheduled cycle
keeps being invoked without a credential. -/
theorem missing_key_not_fatal (now : ℕ) (tokensWatch : List Token)
    (fetchHist : String → ℤ → FetchResult)
    (cur : Option (String → Option ℚ)) (db0 : List PriceRow) :
    (start Option.none now tokensWatch fetchHist cur db0).1 = true ∧
    (start Option.none now tokensWatch fetchHist cur db0).2.1 = db0 := by
  refine ⟨rfl, ?_⟩
  rcases cur with _ | curP
  · rfl
  · rfl

/-! ## Helper lemmas about the rate limiter -/

theorem sorted_dropWhile_gt (c : ℚ) :
    ∀ (l : List ℚ), l.Sorted (· ≤ ·) →
      ∀ x ∈ l.dropWhile (fun t => decide (t ≤ c)), c < x
  | [], _, x, hx => by simp at hx
  | a :: l, hl, x, hx => by
    by_cases ha : a ≤ c
    · rw [List.dropWhile_cons_of_pos (by simpa using ha)] at hx
      exact sorted_dropWhile_gt c l hl.of_cons x hx
    · rw [List.dropWhile_cons_of_neg (by simpa using ha)] at hx
      rcases List.mem_cons.mp hx with rfl | hx
      · exact lt_of_not_le ha
      · exact lt_of_lt_of_le (lt_of_not_le ha)
          ((List.sorted_cons.mp hl).1 x hx)

theorem takeWhile_le (c : ℚ) (l : List ℚ) :
    ∀ x ∈ l.takeWhile (fun t => decide (t ≤ c)), x ≤ c := by
  intro x hx
  simpa using List.mem_takeWhile_imp hx

theorem length_dropWhile_le_countP (c : ℚ) (l : List ℚ)
    (hl : l.Sorted (· ≤ ·)) :
    (l.dropWhile (fun t => decide (t ≤ c))).length ≤
      l.countP (fun t => decide (c < t)) := by
  have hall := sorted_dropWhile_gt c l hl
  have heq : (l.dropWhile (fun t => decide (t ≤ c))).countP
      (fun t => decide (c < t)) =
      (l.dropWhile (fun t => decide (t ≤ c))).length :=
    List.countP_eq_length.mpr (fun a ha => by simpa using hall a ha)
  rw [← heq]
  exact (List.dropWhile_sublist _).countP_le _

theorem sorted_headD_le (l : List ℚ) (hl : l.Sorted (· ≤ ·)) :
    ∀ t ∈ l, l.headD 0 ≤ t := by
  cases l with
  | nil => intro t ht; simp at ht
  | cons a rest =>
    intro t ht
    rcases List.mem_cons.mp ht with rfl | ht
    · exact le_refl t
    · exact (List.sorted_cons.mp hl).1 t ht

theorem getLastD_concat (l : List ℚ) (a d : ℚ) :
    (l ++ [a]).getLastD d = a := by
  rw [List.getLastD_eq_getLast?, List.getLast?_concat]
  rfl

theorem RL.now_le_wait (s : RL) : s.now ≤ s.wait.now := by
  rw [RL.wait]
  split
  · exact le_add_of_nonneg_right (le_max_right _ 0)
  · exact le_refl _

/-- One advance-then-wait step preserves the rate limiter invariant. -/
theorem RLInv.step {m : ℕ} {p : ℚ} {s : RL} {hist : List ℚ} (δ : ℚ)
    (inv : RLInv m p s hist) (hδ : 0 ≤ δ) (hm : 1 ≤ m) (_hp0 : 0 < p) :
    RLInv m p ((s.advance δ).wait) (hist ++ [((s.advance δ).wait).now]) := by
  obtain ⟨maxEq, periodEq, sortedQ, qLe, windowBound, ⟨pre, hsplit, hpre⟩,
    sortedHist, histLe, lastIsNow⟩ := inv
  simp only [RL.wait, RL.advance, maxEq, periodEq]
  have hq2 : s.q = s.q.takeWhile (fun t => decide (t ≤ s.now + δ - p)) ++
      s.q.dropWhile (fun t => decide (t ≤ s.now + δ - p)) :=
    (List.takeWhile_append_dropWhile
      (fun t => decide (t ≤ s.now + δ - p)) s.q).symm
  have hallgt : ∀ x ∈ s.q.dropWhile (fun t => decide (t ≤ s.now + δ - p)),
      s.now + δ - p < x :=
    sorted_dropWhile_gt (s.now + δ - p) s.q sortedQ
  have hsubq : ∀ x ∈ s.q.dropWhile (fun t => decide (t ≤ s.now + δ - p)),
      x ∈ s.q := fun x hx => (List.dropWhile_sublist _).mem hx
  have hlenle :
      (s.q.dropWhile (fun t => decide (t ≤ s.now + δ - p))).length ≤ m := by
    refine le_trans (length_dropWhile_le_countP _ _ sortedQ) ?_
    refine le_trans (List.countP_mono_left (fun a _ ha => ?_)) windowBound
    simp only [decide_eq_true_eq] at ha ⊢
    linarith
  split
  case isTrue hbusy =>
    dsimp only
    have hnil : s.q.dropWhile (fun t => decide (t ≤ s.now + δ - p)) ≠ [] := by
      intro hnil
      rw [hnil] at hbusy
      simp at hbusy
      omega
    obtain ⟨q0, rest, hq0⟩ := List.exists_cons_of_ne_nil hnil
    rw [hq0] at hbusy hallgt hsubq hlenle hq2 ⊢
    have hq0gt : s.now + δ - p < q0 := hallgt q0 (List.mem_cons_self q0 rest)
    have hw : max (q0 - (s.now + δ - p)) 0 = q0 - (s.now + δ - p) :=
      max_eq_left (by linarith)
    simp only [List.headI, hw]
    have hn2 : s.now + δ + (q0 - (s.now + δ - p)) = q0 + p := by ring
    rw [hn2]
    have hlen : rest.length + 1 = m := by
      have := le_antisymm hlenle hbusy
      simpa using this
    have hqle2 : ∀ x ∈ q0 :: rest, x ≤ q0 + p := by
      intro x hx
      have h1 : x ≤ s.now := qLe x (hsubq x hx)
      linarith
    have hsorted2 : (q0 :: rest).Sorted (· ≤ ·) :=
      sortedQ.sublist (hq0 ▸ List.dropWhile_sublist _)
    refine ⟨rfl, rfl, ?_, ?_, ?_, ?_, ?_, ?_, ?_⟩
    · dsimp only
      refine List.pairwise_append.mpr ⟨hsorted2, List.sorted_singleton _, ?_⟩
      intro a ha b hb
      rw [List.mem_singleton.mp hb]
      exact hqle2 a ha
    · dsimp only
      intro t ht
      rcases List.mem_append.mp ht with ht | ht
      · exact hqle2 t ht
      · rw [List.mem_singleton.mp ht]
    · dsimp only
      simp only [List.countP_append, List.countP_cons, List.countP_nil]
      have hq0false : (decide (q0 + p - p < q0)) = false := by
        simp only [decide_eq_false_iff_not]
        intro hcon
        have heq : q0 + p - p = q0 := by ring
        rw [heq] at hcon
        exact lt_irrefl q0 hcon
      rw [hq0false]
      have h1 : rest.countP (fun t => decide (q0 + p - p < t)) ≤ rest.length :=
        List.countP_le_length _
      have h2 : (if decide (q0 + p - p < q0 + p) = true then 1 else 0) ≤ 1 := by
        split <;> omega
      simp only [Bool.false_eq_true, if_false]
      omega
    · dsimp only
      refine ⟨pre ++ s.q.takeWhile (fun t => decide (t ≤ s.now + δ - p)),
        ?_, ?_⟩
      · rw [hsplit]
        conv_lhs => rw [hq2]
        simp only [List.append_assoc, List.cons_append]
      · intro t ht
        have hq0e : q0 + p - p = q0 := by ring
        rw [hq0e]
        rcases List.mem_append.mp ht with ht | ht
        · have := hpre t ht
          linarith
        · have := takeWhile_le (s.now + δ - p) s.q t ht
          linarith
    · dsimp only
      refine List.pairwise_append.mpr
        ⟨sortedHist, List.sorted_singleton _, ?_⟩
      intro a ha b hb
      rw [List.mem_singleton.mp hb]
      have := histLe a ha
      linarith
    · dsimp only
      intro t ht
      rcases List.mem_append.mp ht with ht | ht
      · have := histLe t ht
        linarith
      · rw [List.mem_singleton.mp ht]
    · dsimp only
      intro _
      exact getLastD_concat hist (q0 + p) 0
  case isFalse hbusy =>
    dsimp only
    have hqle2 : ∀ x ∈ s.q.dropWhile (fun t => decide (t ≤ s.now + δ - p)),
        x ≤ s.now + δ := by
      intro x hx
      have := qLe x (hsubq x hx)
      linarith
    refine ⟨rfl, rfl, ?_, ?_, ?_, ?_, ?_, ?_, ?_⟩
    · dsimp only
      refine List.pairwise_append.mpr
        ⟨sortedQ.sublist (List.dropWhile_sublist _),
          List.sorted_singleton _, ?_⟩
      intro a ha b hb
      rw [List.mem_singleton.mp hb]
      exact hqle2 a ha
    · dsimp only
      intro t ht
      rcases List.mem_append.mp ht with ht | ht
      · exact hqle2 t ht
      · rw [List.mem_singleton.mp ht]
    · dsimp only
      rw [List.countP_append]
      have h1 :
          (s.q.dropWhile (fun t => decide (t ≤ s.now + δ - p))).countP
            (fun t => decide (s.now + δ - p < t)) ≤
          (s.q.dropWhile (fun t => decide (t ≤ s.now + δ - p))).length :=
        List.countP_le_length _
      have h2 : ([s.now + δ].countP
          (fun t => decide (s.now + δ - p < t))) ≤ 1 :=
        List.countP_le_length _
      omega
    · dsimp only
      refine ⟨pre ++ s.q.takeWhile (fun t => decide (t ≤ s.now + δ - p)),
        ?_, ?_⟩
      · rw [hsplit]
        conv_lhs => rw [hq2]
        simp only [List.append_assoc]
      · intro t ht
        rcases List.mem_append.mp ht with ht | ht
        · have := hpre t ht
          linarith
        · exact takeWhile_le (s.now + δ - p) s.q t ht
    · dsimp only
      refine List.pairwise_append.mpr
        ⟨sortedHist, List.sorted_singleton _, ?_⟩
      intro a ha b hb
      rw [List.mem_singleton.mp hb]
      have := histLe a ha
      linarith
    · dsimp only
      intro t ht
      rcases List.mem_append.mp ht with ht | ht
      · have := histLe t ht
        linarith
      · rw [List.mem_singleton.mp ht]
    · dsimp only
      intro _
      exact getLastD_concat hist (s.now + δ) 0

/-- A fresh rate limiter satisfies the invariant with an empty call
history. -/
theorem rlInv_init (m : ℕ) (p now0 : ℚ) :
    RLInv m p (RL.init m p now0) [] := by
  refine ⟨rfl, rfl, List.sorted_nil, ?_, ?_, ⟨[], rfl, ?_⟩,
    List.sorted_nil, ?_, ?_⟩
  · intro t ht
    exact absurd ht (List.not_mem_nil t)
  · exact Nat.zero_le m
  · intro t ht
    exact absurd ht (List.not_mem_nil t)
  · intro t ht
    exact absurd ht (List.not_mem_nil t)
  · intro h
    exact absurd rfl h

theorem rlRun_inv (m : ℕ) (p : ℚ) (hm : 1 ≤ m) (hp0 : 0 < p) :
    ∀ (ds : List ℚ) (s : RL) (hist : List ℚ), RLInv m p s hist →
      (∀ δ ∈ ds, 0 ≤ δ) →
      RLInv m p (rlRun s hist ds).1 (rlRun s hist ds).2
  | [], _, _, inv, _ => inv
  | δ :: ds, s, hist, inv, hδ => by
    simp only [rlRun]
    exact rlRun_inv m p hm hp0 ds _ _
      (inv.step δ (hδ δ (List.mem_cons_self δ ds)) hm hp0)
      (fun x hx => hδ x (List.mem_cons_of_mem δ hx))

theorem rlRun_now_le (ds : List ℚ) : ∀ (s : RL) (hist : List ℚ),
    (∀ δ ∈ ds, 0 ≤ δ) → s.now ≤ (rlRun s hist ds).1.now := by
  induction ds with
  | nil => intro s hist _; exact le_refl _
  | cons δ ds ih =>
    intro s hist hδ
    simp only [rlRun]
    refine le_trans ?_ (ih _ _ (fun x hx => hδ x (List.mem_cons_of_mem δ hx)))
    refine le_trans ?_ (RL.now_le_wait (s.advance δ))
    have h0 : 0 ≤ δ := hδ δ (List.mem_cons_self δ ds)
    simp only [RL.advance]
    linarith

theorem rlRun_hist_append (ds : List ℚ) : ∀ (s : RL) (hist : List ℚ),
    ∃ rest, (rlRun s hist ds).2 = hist ++ rest := by
  induction ds with
  | nil => intro s hist; exact ⟨[], (List.append_nil hist).symm⟩
  | cons δ ds ih =>
    intro s hist
    simp only [rlRun]
    obtain ⟨rest, hrest⟩ :=
      ih ((s.advance δ).wait) (hist ++ [((s.advance δ).wait).now])
    exact ⟨[((s.advance δ).wait).now] ++ rest,
      by rw [hrest, List.append_assoc]⟩

theorem rlRun_hist_length (ds : List ℚ) : ∀ (s : RL) (hist : List ℚ),
    (rlRun s hist ds).2.length = hist.length + ds.length := by
  induction ds with
  | nil => intro s hist; simp [rlRun]
  | cons δ ds ih =>
    intro s hist
    simp only [rlRun]
    rw [ih]
    simp only [List.length_append, List.length_singleton, List.length_cons,
      List.length_nil]
    omega

theorem rlRun_append (l1 l2 : List ℚ) : ∀ (s : RL) (hist : List ℚ),
    rlRun s hist (l1 ++ l2) =
      rlRun (rlRun s hist l1).1 (rlRun s hist l1).2 l2 := by
  induction l1 with
  | nil => intro s hist; rfl
  | cons δ ds ih =>
    intro s hist
    simp only [List.cons_append, rlRun]
    exact ih _ _

/-- The invariant bounds the number of recorded call timestamps inside
the trailing window. -/
theorem windowBound_hist {m : ℕ} {p : ℚ} {s : RL} {hist : List ℚ}
    (inv : RLInv m p s hist) :
    hist.countP (fun t => decide (s.now - p < t)) ≤ m := by
  obtain ⟨_, _, _, _, windowBound, ⟨pre, hsplit, hpre⟩, _, _, _⟩ := inv
  rw [hsplit, List.countP_append]
  have hpre0 : pre.countP (fun t => decide (s.now - p < t)) = 0 := by
    rw [List.countP_eq_zero]
    intro a ha
    simp only [decide_eq_true_eq]
    exact not_lt.mpr (hpre a ha)
  rw [hpre0, Nat.zero_add]
  exact windowBound

theorem headD_append_left (l1 l2 : List ℚ) (d : ℚ) (h : l1 ≠ []) :
    (l1 ++ l2).headD d = l1.headD d := by
  cases l1 with
  | nil => exact absurd rfl h
  | cons a t => rfl

/-! ## C4: the sliding-window rate limit is respected -/

/-- C4: for every sequence of wait() calls from a single thread, with
the clock and sleeps explicit: whenever wait() returns and the new call
timestamp is recorded, at most max_calls recorded call timestamps lie in
the trailing period window; and a burst of 2 * max_calls calls spans at
least period seconds. -/
theorem rate_limiter_window_bound (m : ℕ) (p now0 : ℚ) (ds : List ℚ)
    (hm : 1 ≤ m) (hp0 : 0 < p) (hds : ∀ δ ∈ ds, 0 ≤ δ) :
    (rlRun (RL.init m p now0) [] ds).2.countP
        (fun t => decide ((rlRun (RL.init m p now0) [] ds).1.now - p < t))
      ≤ m ∧
    (ds.length = 2 * m →
      p ≤ (rlRun (RL.init m p now0) [] ds).2.getLastD 0 -
        (rlRun (RL.init m p now0) [] ds).2.headD 0) := by
  have invFinal := rlRun_inv m p hm hp0 ds (RL.init m p now0) []
    (rlInv_init m p now0) hds
  refine ⟨windowBound_hist invFinal, ?_⟩
  intro hlen2
  have hdssplit : ds = ds.take (m + 1) ++ ds.drop (m + 1) :=
    (List.take_append_drop _ _).symm
  have hds1 : ∀ δ ∈ ds.take (m + 1), 0 ≤ δ :=
    fun δ hδ => hds δ (List.take_subset _ _ hδ)
  have hds2 : ∀ δ ∈ ds.drop (m + 1), 0 ≤ δ :=
    fun δ hδ => hds δ (List.drop_subset _ _ hδ)
  have inv1 := rlRun_inv m p hm hp0 (ds.take (m + 1)) (RL.init m p now0) []
    (rlInv_init m p now0) hds1
  have hlh1 : (rlRun (RL.init m p now0) [] (ds.take (m + 1))).2.length
      = m + 1 := by
    rw [rlRun_hist_length, List.length_take]
    simp only [List.length_nil]
    omega
  have h1ne : (rlRun (RL.init m p now0) [] (ds.take (m + 1))).2 ≠ [] := by
    intro hcon
    rw [hcon] at hlh1
    simp at hlh1
  have hhead : (rlRun (RL.init m p now0) [] (ds.take (m + 1))).2.headD 0 ≤
      (rlRun (RL.init m p now0) [] (ds.take (m + 1))).1.now - p := by
    by_contra hcon
    push_neg at hcon
    have hall : ∀ t ∈ (rlRun (RL.init m p now0) [] (ds.take (m + 1))).2,
        (fun t => decide
          ((rlRun (RL.init m p now0) [] (ds.take (m + 1))).1.now - p < t)) t
          = true := by
      intro t ht
      simp only [decide_eq_true_eq]
      exact lt_of_lt_of_le hcon (sorted_headD_le _ inv1.sortedHist t ht)
    have hcnt := List.countP_eq_length.mpr hall
    have hwb := windowBound_hist inv1
    rw [hcnt, hlh1] at hwb
    omega
  have inv2 := rlRun_inv m p hm hp0 (ds.drop (m + 1))
    (rlRun (RL.init m p now0) [] (ds.take (m + 1))).1
    (rlRun (RL.init m p now0) [] (ds.take (m + 1))).2 inv1 hds2
  obtain ⟨rest, hrest⟩ := rlRun_hist_append (ds.drop (m + 1))
    (rlRun (RL.init m p now0) [] (ds.take (m + 1))).1
    (rlRun (RL.init m p now0) [] (ds.take (m + 1))).2
  have hfin2ne : (rlRun (rlRun (RL.init m p now0) [] (ds.take (m + 1))).1
      (rlRun (RL.init m p now0) [] (ds.take (m + 1))).2
      (ds.drop (m + 1))).2 ≠ [] := by
    rw [hrest]
    exact List.append_ne_nil_of_left_ne_nil h1ne _
  have hlast := inv2.lastIsNow hfin2ne
  have hnow2 := rlRun_now_le (ds.drop (m + 1))
    (rlRun (RL.init m p now0) [] (ds.take (m + 1))).1
    (rlRun (RL.init m p now0) [] (ds.take (m + 1))).2 hds2
  have hheadfin : (rlRun (rlRun (RL.init m p now0) [] (ds.take (m + 1))).1
      (rlRun (RL.init m p now0) [] (ds.take (m + 1))).2
      (ds.drop (m + 1))).2.headD 0 =
      (rlRun (RL.init m p now0) [] (ds.take (m + 1))).2.headD 0 := by
    rw [hrest]
    exact headD_append_left _ _ 0 h1ne
  rw [hdssplit, rlRun_append, hlast, hheadfin]
  linarith

/-- Witness for C4 with max_calls 1 and a one-second window: two
back-to-back calls from clock 0. -/
theorem rate_limiter_window_bound_witness :
    (rlRun (RL.init 1 1 0) [] [0, 0]).2.countP
        (fun t => decide ((rlRun (RL.init 1 1 0) [] [0, 0]).1.now - 1 < t))
      ≤ 1 ∧
    (([0, 0] : List ℚ).length = 2 * 1 →
      1 ≤ (rlRun (RL.init 1 1 0) [] [0, 0]).2.getLastD 0 -
        (rlRun (RL.init 1 1 0) [] [0, 0]).2.headD 0) :=
  rate_limiter_window_bound 1 1 0 [0, 0] (by decide) (by decide) (by decide)
